import Mathlib

/-!
Shallow embedding of `src/torch_maml/maml.py` (memory-efficient MAML):
the naive inner-loop engine `NaiveMAML.forward` and the gradient-checkpointed
engine `GradientCheckpointMAML.forward`, together with value-level models of
the external collaborators the engines consume (the in-graph optimizer from
`torch_maml/optimizers.py`, the functional-copy utility from
`torch_maml/utils.py`, and torch's recompute-on-backward `checkpoint`
primitive), which are not part of the sources and are therefore modelled
from the spec's contracts.

Tensors that are shared by reference in the Python code (the non-selected
parameters and buffers, `parameters_not_to_copy`) are modelled as values
carrying an identity tag, so that "reference-identical" is expressible as
equality of tagged tensors.  Trainable parameters, losses and optimizer
state are modelled as exact integers (`Int`): the claims about value
equality are stated modulo floating-point accumulation, which the exact
model realises.
-/

namespace TorchMaml

/-- A tensor together with an identity tag: two tensors are the same Python
object exactly when they are equal as `Tensor` values (fresh allocations get
fresh tags).  Used for the frozen (non-selected) parameters and buffers,
where the spec's claims are about reference identity. -/
structure Tensor where
  tid : Nat
  val : Int
deriving DecidableEq, Repr

/-- A model value, as the MAML engines observe it: the ordered sequence of
trainable parameters selected by `get_parameters` (the `parameters_to_copy`
of `GradientCheckpointMAML.forward`), and the remaining parameters and
buffers (`parameters_not_to_copy`), which are shared, never copied. -/
structure Model where
  trainable : List Int
  frozen : List Tensor
deriving DecidableEq, Repr

/-- Modelled from the spec: the in-graph optimizer interface of
`torch_maml/optimizers.py` (not under `src/`).  `getInitialState` is
`get_initial_state`; `step state model loss parameters detach` is
`step(state, model, loss, parameters=..., detach=...)` and returns the new
state together with the new values of the selected parameters, which the
engine substitutes into a new model value (the spec: a pure function that
returns a new state and a new model with updated parameters substituted in;
frozen tensors are shared).  The optimizer state is an ordered flat sequence
of tensors, here already in its flattened form. -/
structure Optimizer where
  getInitialState : Model → List Int
  step : List Int → Model → Int → List Int → Bool → List Int × List Int

/-- Modelled from the spec: `copy_and_replace(model, replacements, frozen)`
of `torch_maml/utils.py` (not under `src/`): a new model value with the
selected parameters replaced by `replacements` and the `frozen` tensors
shared by reference (the very same tagged tensors, not copies). -/
def copy_and_replace (replacements : List Int) (frozen : List Tensor) : Model :=
  ⟨replacements, frozen⟩

/-- The result triple returned by `forward` of either engine
(`MAML.Result = namedtuple('Result', ['model', 'loss_history', 'optimizer_state'])`). -/
structure Result where
  model : Model
  lossHistory : List Int
  optimizerState : List Int
deriving DecidableEq, Repr

/-- The optimizer-state initialization shared by both engines:
`if optimizer_state is None: optimizer_state = self.optimizer.get_initial_state(self)`,
i.e. the caller-supplied state when given, otherwise a fresh one built by the
optimizer from the engine's model. -/
def initState (opt : Optimizer) (model : Model) : Option (List Int) → List Int
  | some s => s
  | none => opt.getInitialState model

/-- The loop body of `NaiveMAML.forward`: iterate the inputs in order; at
each step compute the loss on the current updated model, record it, and call
`optimizer.step` (with the default `detach=False`) to obtain the next
`(optimizer_state, updated_model)`; the new model shares the frozen tensors. -/
def naiveLoop (opt : Optimizer) (lossFn : Model → Int → Int)
    (optimizerState : List Int) (updatedModel : Model) :
    List Int → Result
  | [] => ⟨updatedModel, [], optimizerState⟩
  | input :: rest =>
    let loss := lossFn updatedModel input
    let p := opt.step optimizerState updatedModel loss updatedModel.trainable false
    let r := naiveLoop opt lossFn p.1 ⟨p.2, updatedModel.frozen⟩ rest
    ⟨r.model, loss :: r.lossHistory, r.optimizerState⟩

namespace NaiveMAML

/-- `NaiveMAML.forward(inputs, optimizer_state=None)`: asserts the inputs
are non-empty (`none` models the assertion failure, raised before any other
computation), initializes the optimizer state (caller-supplied if given,
otherwise `optimizer.get_initial_state`), runs the inner loop, and returns
`Result(updated_model, loss_history, optimizer_state)`. -/
def forward (opt : Optimizer) (lossFn : Model → Int → Int) (model : Model)
    (inputs : List Int) (optimizerState : Option (List Int)) : Option Result :=
  if inputs.isEmpty then none
  else some (naiveLoop opt lossFn (initState opt model optimizerState) model inputs)

end NaiveMAML

/-- The output tuple of `_maml_internal`:
`(step_index, torch.stack(inner_losses), *get_parameters(updated_model), *optimizer_state)`,
with the trailing parameters-and-state kept as one flat list, plus a ghost
trace of the `detach` flags the chunk passed to `optimizer.step` (one per
inner step), recorded for verification only. -/
structure ChunkOut where
  stepIndex : Nat
  innerLosses : List Int
  flat : List Int
  detachTrace : List Bool
deriving DecidableEq, Repr

/-- The inner `for _ in range(int(steps))` loop of `_maml_internal`: runs
`steps` optimizer steps starting at absolute input index `stepIndex`,
computing each loss on the current model at `inputs[int(step_index)]` and
calling `optimizer.step(..., detach=is_first_pass)`. Returns the final step
index, the per-step losses in order, the final state and model, and the
ghost trace of detach flags. -/
def chunkLoop (opt : Optimizer) (lossFn : Model → Int → Int) (inputs : List Int)
    (isFirstPass : Bool) :
    Nat → Nat → List Int → Model → Nat × List Int × List Int × Model × List Bool
  | 0, i, s, m => (i, [], s, m, [])
  | steps + 1, i, s, m =>
    let loss := lossFn m (inputs.getD i 0)
    let p := opt.step s m loss m.trainable isFirstPass
    let r := chunkLoop opt lossFn inputs isFirstPass steps (i + 1) p.1 ⟨p.2, m.frozen⟩
    (r.1, loss :: r.2.1, r.2.2.1, r.2.2.2.1, isFirstPass :: r.2.2.2.2)

/-- `_maml_internal(step_index, steps, *trainable_parameters_and_state)`:
splits the flat tensor list at `len(parameters_to_copy)` (here `P`) into the
trainable parameters and the optimizer state, reconstructs the model via
`copy_and_replace` from the engine's model (sharing `parameters_not_to_copy`),
and runs `steps` inner optimizer steps with `detach = is_first_pass`, where
`is_first_pass = not torch.is_grad_enabled()`.  `gradEnabled` is the grad
mode the pass runs under: `false` in the checkpoint-recording pass,
`true` in the recompute pass. -/
def mamlInternal (opt : Optimizer) (lossFn : Model → Int → Int)
    (frozen0 : List Tensor) (inputs : List Int) (P : Nat) (gradEnabled : Bool)
    (stepIndex : Nat) (steps : Nat) (tpsAndState : List Int) : ChunkOut :=
  let trainableParameters := tpsAndState.take P
  let optimizerState := tpsAndState.drop P
  let updatedModel := copy_and_replace trainableParameters frozen0
  let isFirstPass := !gradEnabled
  let r := chunkLoop opt lossFn inputs isFirstPass steps stepIndex optimizerState updatedModel
  ⟨r.1, r.2.1, r.2.2.2.1.trainable ++ r.2.2.1, r.2.2.2.2⟩

/-- Modelled from the spec: `torch.utils.checkpoint.checkpoint(f, *args)`
runs `f` once in the recording pass under `torch.no_grad()` and takes the
recording pass's outputs as the checkpoint's forward outputs (the recompute
pass re-executes the same body under grad during backward; its outputs are
consumed by differentiation only).  The body receives the grad mode. -/
def checkpointCall {A : Type} (f : Bool → A) : A := f false

/-- Structural-recursion worker for `chunkSizes`: the first argument is
fuel, always at least the number of remaining inputs at every call (each
chunk consumes at least one input when the step is positive), so the fuel
never runs out on the calls the engine makes. -/
def chunkSizesGo (k : Nat) : Nat → Nat → List Nat
  | _, 0 => []
  | 0, _ + 1 => []
  | fuel + 1, n + 1 =>
    if k = 0 then []
    else min k (n + 1) :: chunkSizesGo k fuel (n + 1 - k)

/-- The sequence of chunk sizes produced by
`for chunk_start in range(0, len(inputs), checkpoint_steps)` with
`steps = min(self.checkpoint_steps, len(inputs) - chunk_start)`, as a
function of the step `k` and the number of remaining inputs.  A step of `0`
makes Python's `range` raise, so it yields no chunks here (the engine
rejects it separately). -/
def chunkSizes (k n : Nat) : List Nat := chunkSizesGo k n n

/-- The chunk loop of `GradientCheckpointMAML.forward`: one `checkpoint`
invocation per chunk, threading `(step_index, *trainable_parameters_and_optimizer_state)`
and extending the loss history with each chunk's losses split back into one
entry per step.  The final `Nat` counts the checkpoint invocations performed
(ghost, for the memory accounting). -/
def checkpointLoop (opt : Optimizer) (lossFn : Model → Int → Int)
    (frozen0 : List Tensor) (inputs : List Int) (P : Nat) :
    List Nat → Nat → List Int → Nat × List Int × List Int × Nat
  | [], i, flat => (i, [], flat, 0)
  | sz :: rest, i, flat =>
    let c := checkpointCall (fun g => mamlInternal opt lossFn frozen0 inputs P g i sz flat)
    let r := checkpointLoop opt lossFn frozen0 inputs P rest c.stepIndex c.flat
    (r.1, c.innerLosses ++ r.2.1, r.2.2.1, r.2.2.2 + 1)

namespace GradientCheckpointMAML

/-- `GradientCheckpointMAML.forward(inputs, optimizer_state=None)` with the
engine's `checkpoint_steps = k`: asserts the inputs are non-empty, computes
the fixed partition `parameters_to_copy` / `parameters_not_to_copy`, runs
the chunked checkpoint loop, and rebuilds the final optimizer state and the
final model (via `copy_and_replace`, sharing the frozen tensors) from the
flat boundary tensors.  `checkpoint_steps = 0` makes Python's `range` raise,
modelled as `none`. -/
def forward (opt : Optimizer) (lossFn : Model → Int → Int) (model : Model)
    (k : Nat) (inputs : List Int) (optimizerState : Option (List Int)) :
    Option Result :=
  if inputs.isEmpty then none
  else if k = 0 then none
  else
    let s0 := initState opt model optimizerState
    let P := model.trainable.length
    let flat0 := model.trainable ++ s0
    let r := checkpointLoop opt lossFn model.frozen inputs P
      (chunkSizes k inputs.length) 0 flat0
    let finalTrainable := (r.2.2.1).take P
    let finalState := (r.2.2.1).drop P
    some ⟨copy_and_replace finalTrainable model.frozen, r.2.1, finalState⟩

end GradientCheckpointMAML

/-- Modelled from the spec: the naive engine keeps the full chain of
intermediate models and gradients in the computation graph, so the retained
intermediate-tensor count is one loss plus `P` parameter tensors plus `S`
state tensors per inner step, linear in the number of steps `n`. -/
def naiveRetainedTensors (P S n : Nat) : Nat := (1 + P + S) * n

/-- Modelled from the spec: the checkpointed engine retains, per checkpoint
invocation, only the chunk's boundary tensors saved by the checkpoint
primitive — the step index, the step count, and the `P + S` flat trainable
parameters and state tensors — so the retained count is `2 + P + S` times
the number of chunks. -/
def checkpointRetainedTensors (P S k n : Nat) : Nat :=
  (2 + P + S) * (chunkSizes k n).length

/-- A concrete in-graph optimizer in the spirit of `IngraphGradientDescent`,
used to instantiate the claim theorems on concrete inputs: the state is one
counter tensor per parameter, the update subtracts the loss from every
selected parameter, and `detach` leaves all values unchanged (it only severs
graph history), as the optimizer contract requires. -/
def sgd : Optimizer where
  getInitialState := fun m => m.trainable.map (fun _ => 0)
  step := fun s _m loss p _detach =>
    (s.map (fun v => v + loss), p.map (fun v => v - loss))

/-- A concrete loss function for instantiating the claim theorems: sums the
trainable parameters, the frozen tensor values and the input. -/
def demoLoss : Model → Int → Int :=
  fun m input => m.trainable.sum + (m.frozen.map Tensor.val).sum + input

/-- A concrete model for instantiating the claim theorems: two trainable
parameters and one frozen tensor with identity tag 7. -/
def demoModel : Model := ⟨[1, 2], [⟨7, 5⟩]⟩

/-! Helper lemmas about the naive loop. -/

theorem naiveLoop_nil (opt : Optimizer) (lossFn : Model → Int → Int)
    (s : List Int) (m : Model) : naiveLoop opt lossFn s m [] = ⟨m, [], s⟩ := rfl

theorem naiveLoop_cons (opt : Optimizer) (lossFn : Model → Int → Int)
    (s : List Int) (m : Model) (x : Int) (rest : List Int) :
    naiveLoop opt lossFn s m (x :: rest) =
      (let loss := lossFn m x
       let p := opt.step s m loss m.trainable false
       let r := naiveLoop opt lossFn p.1 ⟨p.2, m.frozen⟩ rest
       ⟨r.model, loss :: r.lossHistory, r.optimizerState⟩) := rfl

theorem naiveLoop_append (opt : Optimizer) (lossFn : Model → Int → Int)
    (l₁ l₂ : List Int) (s : List Int) (m : Model) :
    naiveLoop opt lossFn s m (l₁ ++ l₂) =
      (let r₁ := naiveLoop opt lossFn s m l₁
       let r₂ := naiveLoop opt lossFn r₁.optimizerState r₁.model l₂
       ⟨r₂.model, r₁.lossHistory ++ r₂.lossHistory, r₂.optimizerState⟩) := by
  induction l₁ generalizing s m with
  | nil => simp [naiveLoop]
  | cons x rest ih => simp [naiveLoop, ih]

theorem naiveLoop_frozen (opt : Optimizer) (lossFn : Model → Int → Int)
    (l : List Int) (s : List Int) (m : Model) :
    (naiveLoop opt lossFn s m l).model.frozen = m.frozen := by
  induction l generalizing s m with
  | nil => rfl
  | cons x rest ih => simp [naiveLoop, ih]

theorem naiveLoop_history_length (opt : Optimizer) (lossFn : Model → Int → Int)
    (l : List Int) (s : List Int) (m : Model) :
    (naiveLoop opt lossFn s m l).lossHistory.length = l.length := by
  induction l generalizing s m with
  | nil => rfl
  | cons x rest ih => simp [naiveLoop, ih]

theorem naiveLoop_trainable_length (opt : Optimizer) (lossFn : Model → Int → Int)
    (hP : ∀ s m loss d, ((opt.step s m loss m.trainable d).2).length = m.trainable.length)
    (l : List Int) (s : List Int) (m : Model) :
    (naiveLoop opt lossFn s m l).model.trainable.length = m.trainable.length := by
  induction l generalizing s m with
  | nil => rfl
  | cons x rest ih => simp [naiveLoop, ih, hP]

theorem naiveLoop_history_get (opt : Optimizer) (lossFn : Model → Int → Int)
    (l : List Int) (s : List Int) (m : Model) (i : Nat) (hi : i < l.length) :
    (naiveLoop opt lossFn s m l).lossHistory.getD i 0 =
      lossFn (naiveLoop opt lossFn s m (l.take i)).model (l.getD i 0) := by
  induction l generalizing s m i with
  | nil => simp at hi
  | cons x rest ih =>
    cases i with
    | zero => simp [naiveLoop]
    | succ j =>
      have hj : j < rest.length := by simpa using hi
      simp only [naiveLoop, List.getD_cons_succ, List.take_succ_cons]
      exact ih _ _ j hj

/-! Helper lemmas about the chunk-size sequence. -/

theorem chunkSizesGo_zero (k : Nat) (fuel : Nat) : chunkSizesGo k fuel 0 = [] := by
  cases fuel <;> rfl

theorem chunkSizesGo_congr (k : Nat) (hk : k ≠ 0) :
    ∀ n fuel fuel', n ≤ fuel → n ≤ fuel' →
      chunkSizesGo k fuel n = chunkSizesGo k fuel' n := by
  intro n
  induction n using Nat.strong_induction_on with
  | _ n ih =>
    match n with
    | 0 => intro fuel fuel' _ _; rw [chunkSizesGo_zero, chunkSizesGo_zero]
    | m + 1 =>
      intro fuel fuel' hf hf'
      match fuel, hf with
      | f + 1, _ =>
        match fuel', hf' with
        | f' + 1, _ =>
          simp only [chunkSizesGo, hk, if_false]
          rw [ih (m + 1 - k) (by omega) f f' (by omega) (by omega)]

theorem chunkSizes_zero (k : Nat) : chunkSizes k 0 = [] := rfl

theorem chunkSizes_succ (k n : Nat) (hk : k ≠ 0) :
    chunkSizes k (n + 1) = min k (n + 1) :: chunkSizes k (n + 1 - k) := by
  show chunkSizesGo k (n + 1) (n + 1) = _
  simp only [chunkSizesGo, hk, if_false]
  rw [chunkSizesGo_congr k hk (n + 1 - k) n (n + 1 - k) (by omega) (by omega)]
  rfl

theorem chunkSizes_sum (k : Nat) (hk : k ≠ 0) :
    ∀ n, (chunkSizes k n).sum = n := by
  intro n
  induction n using Nat.strong_induction_on with
  | _ n ih =>
    match n with
    | 0 => simp [chunkSizes_zero]
    | m + 1 =>
      rw [chunkSizes_succ k m hk, List.sum_cons,
        ih (m + 1 - k) (by omega)]
      omega

theorem chunkSizes_length (k : Nat) (hk : k ≠ 0) :
    ∀ n, (chunkSizes k n).length = (n + k - 1) / k := by
  intro n
  induction n using Nat.strong_induction_on with
  | _ n ih =>
    match n with
    | 0 =>
      have : (k - 1) / k = 0 := Nat.div_eq_of_lt (by omega)
      simpa [chunkSizes_zero] using this.symm
    | m + 1 =>
      rw [chunkSizes_succ k m hk, List.length_cons,
        ih (m + 1 - k) (by omega)]
      have hk1 : 0 < k := Nat.pos_of_ne_zero hk
      rcases le_or_lt k (m + 1) with hle | hlt
      · have h1 : m + 1 - k + k - 1 = m + 1 - 1 := by omega
        have h2 : m + 1 + k - 1 = (m + 1 - 1) + k := by omega
        rw [h1, h2, Nat.add_div_right _ hk1]
      · have h1 : m + 1 - k + k - 1 = k - 1 := by omega
        have h2 : m + 1 + k - 1 = m + k := by omega
        rw [h1, h2, Nat.add_div_right _ hk1,
          Nat.div_eq_of_lt (by omega : m < k),
          Nat.div_eq_of_lt (by omega : k - 1 < k)]

theorem chunkSizes_getD (k : Nat) (hk : k ≠ 0) :
    ∀ n i, i < (chunkSizes k n).length →
      (chunkSizes k n).getD i 0 = min k (n - k * i) := by
  intro n
  induction n using Nat.strong_induction_on with
  | _ n ih =>
    match n with
    | 0 => intro i hi; simp [chunkSizes_zero] at hi
    | m + 1 =>
      intro i hi
      rw [chunkSizes_succ k m hk] at hi ⊢
      cases i with
      | zero => simp
      | succ j =>
        have hj : j < (chunkSizes k (m + 1 - k)).length := by
          simpa using hi
        rw [List.getD_cons_succ, ih (m + 1 - k) (by omega) j hj]
        have hkj : k * (j + 1) = k * j + k := by ring
        have : m + 1 - k - k * j = m + 1 - k * (j + 1) := by
          rw [hkj]; omega
        rw [this]

theorem chunkSizes_getD_of_not_last (k : Nat) (hk : k ≠ 0) :
    ∀ n i, i + 1 < (chunkSizes k n).length →
      (chunkSizes k n).getD i 0 = k := by
  intro n
  induction n using Nat.strong_induction_on with
  | _ n ih =>
    match n with
    | 0 => intro i hi; simp [chunkSizes_zero] at hi
    | m + 1 =>
      intro i hi
      rw [chunkSizes_succ k m hk] at hi ⊢
      cases i with
      | zero =>
        have htail : chunkSizes k (m + 1 - k) ≠ [] := by
          intro hnil
          rw [hnil] at hi
          simp at hi
        have hsub : m + 1 - k ≠ 0 := by
          intro h0
          exact htail (by rw [h0, chunkSizes_zero])
        have : min k (m + 1) = k := by omega
        simpa using this
      | succ j =>
        have hj : j + 1 < (chunkSizes k (m + 1 - k)).length := by
          simpa using hi
        rw [List.getD_cons_succ]
        exact ih (m + 1 - k) (by omega) j hj

/-! Helper lemmas relating the checkpointed chunk body to the naive loop. -/

theorem Optimizer.step_detach (opt : Optimizer)
    (hdet : ∀ s m loss p, opt.step s m loss p true = opt.step s m loss p false)
    (s : List Int) (m : Model) (loss : Int) (p : List Int) (d : Bool) :
    opt.step s m loss p d = opt.step s m loss p false := by
  cases d
  · rfl
  · exact hdet s m loss p

theorem chunkLoop_eq_naiveLoop (opt : Optimizer) (lossFn : Model → Int → Int)
    (inputs : List Int) (fp : Bool)
    (hdet : ∀ s m loss p, opt.step s m loss p true = opt.step s m loss p false) :
    ∀ steps i s m, i + steps ≤ inputs.length →
      chunkLoop opt lossFn inputs fp steps i s m =
        (let r := naiveLoop opt lossFn s m ((inputs.drop i).take steps)
         (i + steps, r.lossHistory, r.optimizerState, r.model,
           List.replicate steps fp)) := by
  intro steps
  induction steps with
  | zero => intro i s m _; simp [chunkLoop, naiveLoop]
  | succ steps ih =>
    intro i s m hle
    have hi : i < inputs.length := by omega
    have hgetD : inputs.getD i 0 = inputs.get ⟨i, hi⟩ := by
      simp [List.getD_eq_getElem?_getD, List.getElem?_eq_getElem hi]
    have hdrop : inputs.drop i = inputs.get ⟨i, hi⟩ :: inputs.drop (i + 1) :=
      List.drop_eq_getElem_cons hi
    have htake : (inputs.drop i).take (steps + 1) =
        inputs.get ⟨i, hi⟩ :: (inputs.drop (i + 1)).take steps := by
      rw [hdrop, List.take_succ_cons]
    rw [htake]
    simp only [chunkLoop, naiveLoop, hgetD,
      opt.step_detach hdet, ih (i + 1) _ _ (by omega)]
    simp [List.replicate_succ]
    omega

theorem mamlInternal_eq_naiveLoop (opt : Optimizer) (lossFn : Model → Int → Int)
    (frozen0 : List Tensor) (inputs : List Int) (P : Nat) (g : Bool)
    (i steps : Nat) (t s : List Int)
    (hdet : ∀ s m loss p, opt.step s m loss p true = opt.step s m loss p false)
    (ht : t.length = P) (hle : i + steps ≤ inputs.length) :
    mamlInternal opt lossFn frozen0 inputs P g i steps (t ++ s) =
      (let r := naiveLoop opt lossFn s ⟨t, frozen0⟩ ((inputs.drop i).take steps)
       ⟨i + steps, r.lossHistory, r.model.trainable ++ r.optimizerState,
         List.replicate steps (!g)⟩) := by
  simp only [mamlInternal, List.take_left' ht, List.drop_left' ht,
    copy_and_replace, chunkLoop_eq_naiveLoop opt lossFn inputs (!g) hdet steps i s _ hle]

theorem checkpointLoop_eq_naiveLoop (opt : Optimizer) (lossFn : Model → Int → Int)
    (frozen0 : List Tensor) (inputs : List Int) (P : Nat) (k : Nat)
    (hdet : ∀ s m loss p, opt.step s m loss p true = opt.step s m loss p false)
    (hP : ∀ s m loss d, ((opt.step s m loss m.trainable d).2).length = m.trainable.length)
    (hk : k ≠ 0) :
    ∀ n i t s, n = inputs.length - i → i ≤ inputs.length → t.length = P →
      checkpointLoop opt lossFn frozen0 inputs P (chunkSizes k n) i (t ++ s) =
        (let r := naiveLoop opt lossFn s ⟨t, frozen0⟩ (inputs.drop i)
         (inputs.length, r.lossHistory, r.model.trainable ++ r.optimizerState,
           (chunkSizes k n).length)) := by
  intro n
  induction n using Nat.strong_induction_on with
  | _ n ih =>
    match n with
    | 0 =>
      intro i t s hn hi _
      have hieq : i = inputs.length := by omega
      subst hieq
      simp [chunkSizes_zero, checkpointLoop, naiveLoop]
    | m + 1 =>
      intro i t s hn hi ht
      have hsz : min k (m + 1) ≤ inputs.length - i := by omega
      have hle : i + min k (m + 1) ≤ inputs.length := by omega
      rw [chunkSizes_succ k m hk]
      simp only [checkpointLoop, checkpointCall]
      rw [mamlInternal_eq_naiveLoop opt lossFn frozen0 inputs P false i
        (min k (m + 1)) t s hdet ht hle]
      have hfrozen : (naiveLoop opt lossFn s ⟨t, frozen0⟩
          ((inputs.drop i).take (min k (m + 1)))).model.frozen = frozen0 :=
        naiveLoop_frozen opt lossFn _ _ _
      have htlen : (naiveLoop opt lossFn s ⟨t, frozen0⟩
          ((inputs.drop i).take (min k (m + 1)))).model.trainable.length = P := by
        rw [naiveLoop_trainable_length opt lossFn hP]; exact ht
      have hrec : m + 1 - k = inputs.length - (i + min k (m + 1)) := by omega
      rw [ih (m + 1 - k) (by omega) (i + min k (m + 1)) _ _ hrec (by omega) htlen]
      have hmk : ∀ M : Model, M.frozen = frozen0 →
          (⟨M.trainable, frozen0⟩ : Model) = M := by
        intro M hf
        cases M
        simp_all
      rw [hmk _ hfrozen]
      have hsplit : inputs.drop i =
          (inputs.drop i).take (min k (m + 1)) ++ inputs.drop (i + min k (m + 1)) := by
        rw [← List.drop_drop]
        exact (List.take_append_drop _ _).symm
      conv =>
        rhs
        rw [hsplit]
      rw [naiveLoop_append]
      simp

theorem Model.mk_of_frozen_eq (M : Model) (fr : List Tensor) (h : M.frozen = fr) :
    (⟨M.trainable, fr⟩ : Model) = M := by
  cases M
  simp_all

theorem chunkLoop_losses_length (opt : Optimizer) (lossFn : Model → Int → Int)
    (inputs : List Int) (fp : Bool) :
    ∀ steps i s m, (chunkLoop opt lossFn inputs fp steps i s m).2.1.length = steps := by
  intro steps
  induction steps with
  | zero => intro i s m; rfl
  | succ steps ih => intro i s m; simp [chunkLoop, ih]

theorem chunkLoop_detach_invariant (opt : Optimizer) (lossFn : Model → Int → Int)
    (inputs : List Int)
    (hdet : ∀ s m loss p, opt.step s m loss p true = opt.step s m loss p false)
    (fp : Bool) :
    ∀ steps i s m,
      chunkLoop opt lossFn inputs fp steps i s m =
        (let r := chunkLoop opt lossFn inputs false steps i s m
         (r.1, r.2.1, r.2.2.1, r.2.2.2.1, List.replicate steps fp)) := by
  intro steps
  induction steps with
  | zero => intro i s m; simp [chunkLoop]
  | succ steps ih =>
    intro i s m
    simp only [chunkLoop, opt.step_detach hdet, ih (i + 1)]
    simp [List.replicate_succ]

theorem checkpointLoop_hist_length (opt : Optimizer) (lossFn : Model → Int → Int)
    (frozen0 : List Tensor) (inputs : List Int) (P : Nat) :
    ∀ sizes i flat,
      (checkpointLoop opt lossFn frozen0 inputs P sizes i flat).2.1.length = sizes.sum := by
  intro sizes
  induction sizes with
  | nil => intro i flat; rfl
  | cons sz rest ih =>
    intro i flat
    simp [checkpointLoop, checkpointCall, mamlInternal, ih,
      chunkLoop_losses_length]

theorem checkpointLoop_calls (opt : Optimizer) (lossFn : Model → Int → Int)
    (frozen0 : List Tensor) (inputs : List Int) (P : Nat) :
    ∀ sizes i flat,
      (checkpointLoop opt lossFn frozen0 inputs P sizes i flat).2.2.2 = sizes.length := by
  intro sizes
  induction sizes with
  | nil => intro i flat; rfl
  | cons sz rest ih => intro i flat; simp [checkpointLoop, ih]

theorem ckpt_forward_eq_naive_aux (opt : Optimizer) (lossFn : Model → Int → Int)
    (model : Model) (inputs : List Int) (k : Nat) (os : Option (List Int))
    (hne : inputs ≠ []) (hk1 : 1 ≤ k)
    (hdet : ∀ s m loss p, opt.step s m loss p true = opt.step s m loss p false)
    (hP : ∀ s m loss d, ((opt.step s m loss m.trainable d).2).length = m.trainable.length) :
    GradientCheckpointMAML.forward opt lossFn model k inputs os =
      NaiveMAML.forward opt lossFn model inputs os := by
  have hk0 : k ≠ 0 := by omega
  have hne' : inputs.isEmpty = false := by simpa using hne
  rw [GradientCheckpointMAML.forward, NaiveMAML.forward]
  simp only [hne', hk0, Bool.false_eq_true, if_false]
  rw [checkpointLoop_eq_naiveLoop opt lossFn model.frozen inputs
    model.trainable.length k hdet hP hk0 inputs.length 0 model.trainable
    (initState opt model os) (by omega) (by omega) rfl]
  simp only [List.drop_zero]
  have hm : (⟨model.trainable, model.frozen⟩ : Model) = model :=
    Model.mk_of_frozen_eq model model.frozen rfl
  rw [hm]
  have htR : (naiveLoop opt lossFn (initState opt model os) model
      inputs).model.trainable.length = model.trainable.length :=
    naiveLoop_trainable_length opt lossFn hP _ _ _
  simp only [List.take_left' htR, List.drop_left' htR, copy_and_replace]
  rw [Model.mk_of_frozen_eq _ _ (naiveLoop_frozen opt lossFn inputs _ model)]

theorem chunkLoop_detachTrace (opt : Optimizer) (lossFn : Model → Int → Int)
    (inputs : List Int) (fp : Bool) :
    ∀ steps i s m,
      (chunkLoop opt lossFn inputs fp steps i s m).2.2.2.2 = List.replicate steps fp := by
  intro steps
  induction steps with
  | zero => intro i s m; rfl
  | succ steps ih => intro i s m; simp [chunkLoop, ih, List.replicate_succ]

/-! The claim theorems. -/

/-- Claim C1: for every model, optimizer (meeting the spec's value-level
contract: `detach` changes no values and `step` preserves the selected
parameter count), loss function and non-empty input sequence of length `N`,
and every `checkpoint_steps` in `[1, N]`, the checkpointed engine's forward
returns the same result as the naive engine's forward on the same arguments:
equal updated-model parameter values (exact, since the embedding computes
with exact integers), the same loss history values in the same order, and an
equal final optimizer state. -/
theorem checkpointed_forward_refines_naive (opt : Optimizer)
    (lossFn : Model → Int → Int) (model : Model) (inputs : List Int)
    (k : Nat) (os : Option (List Int))
    (hne : inputs ≠ []) (hk1 : 1 ≤ k) (_hkN : k ≤ inputs.length)
    (hdet : ∀ s m loss p, opt.step s m loss p true = opt.step s m loss p false)
    (hP : ∀ s m loss d, ((opt.step s m loss m.trainable d).2).length = m.trainable.length) :
    GradientCheckpointMAML.forward opt lossFn model k inputs os =
      NaiveMAML.forward opt lossFn model inputs os :=
  ckpt_forward_eq_naive_aux opt lossFn model inputs k os hne hk1 hdet hP

theorem checkpointed_forward_refines_naive_witness :
    GradientCheckpointMAML.forward sgd demoLoss demoModel 2 [3, 4, 5] none =
      NaiveMAML.forward sgd demoLoss demoModel [3, 4, 5] none :=
  checkpointed_forward_refines_naive sgd demoLoss demoModel [3, 4, 5] 2 none
    (by decide) (by decide) (by decide) (fun _ _ _ _ => rfl)
    (by intro s m loss d; simp [sgd])

/-- Claim C2: for both engines and every non-empty input sequence of length
`N`, forward returns a loss history of exactly `N` scalar losses, one per
inner step in step order; the `i`-th entry is the loss of the current model
after `i` updates, i.e. recorded before the update that follows it, and the
checkpointed history coincides with the naive one whenever the optimizer
meets its value-level contract. -/
theorem forward_loss_history_one_per_step (opt : Optimizer)
    (lossFn : Model → Int → Int) (model : Model) (inputs : List Int)
    (k : Nat) (os : Option (List Int))
    (hne : inputs ≠ []) (hk1 : 1 ≤ k) :
    ∃ rN rC,
      NaiveMAML.forward opt lossFn model inputs os = some rN ∧
      GradientCheckpointMAML.forward opt lossFn model k inputs os = some rC ∧
      rN.lossHistory.length = inputs.length ∧
      rC.lossHistory.length = inputs.length ∧
      (∀ i, i < inputs.length →
        rN.lossHistory.getD i 0 =
          lossFn (naiveLoop opt lossFn (initState opt model os) model
            (inputs.take i)).model (inputs.getD i 0)) ∧
      ((∀ s m loss p, opt.step s m loss p true = opt.step s m loss p false) →
        (∀ s m loss d,
          ((opt.step s m loss m.trainable d).2).length = m.trainable.length) →
        rC.lossHistory = rN.lossHistory) := by
  have hne' : inputs.isEmpty = false := by simpa using hne
  have hk0 : k ≠ 0 := by omega
  rw [NaiveMAML.forward, GradientCheckpointMAML.forward]
  simp only [hne', hk0, Bool.false_eq_true, if_false]
  refine ⟨_, _, rfl, rfl, naiveLoop_history_length opt lossFn inputs _ model,
    ?_, ?_, ?_⟩
  · simp only [checkpointLoop_hist_length]
    exact chunkSizes_sum k hk0 inputs.length
  · intro i hi
    exact naiveLoop_history_get opt lossFn inputs _ model i hi
  · intro hdet hP
    rw [checkpointLoop_eq_naiveLoop opt lossFn model.frozen inputs
      model.trainable.length k hdet hP hk0 inputs.length 0 model.trainable
      (initState opt model os) (by omega) (by omega) rfl]
    simp only [List.drop_zero]

theorem forward_loss_history_one_per_step_witness :
    ∃ rN rC,
      NaiveMAML.forward sgd demoLoss demoModel [3, 4, 5] none = some rN ∧
      GradientCheckpointMAML.forward sgd demoLoss demoModel 2 [3, 4, 5] none = some rC ∧
      rN.lossHistory.length = ([3, 4, 5] : List Int).length ∧
      rC.lossHistory.length = ([3, 4, 5] : List Int).length ∧
      (∀ i, i < ([3, 4, 5] : List Int).length →
        rN.lossHistory.getD i 0 =
          demoLoss (naiveLoop sgd demoLoss (initState sgd demoModel none) demoModel
            (([3, 4, 5] : List Int).take i)).model (([3, 4, 5] : List Int).getD i 0)) ∧
      ((∀ s m loss p, sgd.step s m loss p true = sgd.step s m loss p false) →
        (∀ s m loss d,
          ((sgd.step s m loss m.trainable d).2).length = m.trainable.length) →
        rC.lossHistory = rN.lossHistory) :=
  forward_loss_history_one_per_step sgd demoLoss demoModel [3, 4, 5] 2 none
    (by decide) (by decide)

/-- Claim C3: the naive engine's forward on a non-empty input sequence first
initializes the optimizer state (the caller-supplied `optimizer_state` if
given, otherwise a fresh one via `get_initial_state`), then iterates the
inputs in order: at each step it computes the loss on the current updated
model, appends it to the history, and calls `optimizer.step` to obtain the
next state and model; it returns the triple of final model, loss history and
final optimizer state. -/
theorem naive_forward_algorithm (opt : Optimizer) (lossFn : Model → Int → Int)
    (m : Model) (os : Option (List Int)) (x : Int) (xs : List Int) :
    NaiveMAML.forward opt lossFn m (x :: xs) os =
      (let s0 := initState opt m os
       let loss := lossFn m x
       let p := opt.step s0 m loss m.trainable false
       match xs with
       | [] => some ⟨⟨p.2, m.frozen⟩, [loss], p.1⟩
       | y :: ys =>
         Option.map (fun r => ⟨r.model, loss :: r.lossHistory, r.optimizerState⟩)
           (NaiveMAML.forward opt lossFn ⟨p.2, m.frozen⟩ (y :: ys) (some p.1))) := by
  cases xs with
  | nil => simp [NaiveMAML.forward, naiveLoop, initState]
  | cons y ys => simp [NaiveMAML.forward, naiveLoop, initState]

/-- Claim C4: for both engines, calling forward with an empty input sequence
fails with the assertion error before any computation and returns no
`Result`: the outcome is `none` for every optimizer, loss function, model
and supplied optimizer state, so no collaborator is ever consulted. -/
theorem forward_empty_inputs_fails (opt : Optimizer)
    (lossFn : Model → Int → Int) (model : Model) (k : Nat)
    (os : Option (List Int)) :
    NaiveMAML.forward opt lossFn model [] os = none ∧
    GradientCheckpointMAML.forward opt lossFn model k [] os = none :=
  ⟨rfl, rfl⟩

/-- Claim C5: in the checkpointed engine, for every non-empty input sequence
of length `N` and `checkpoint_steps = k ≥ 1`, the inputs are partitioned
into consecutive chunks processed left to right whose sizes are
`min(k, remaining)` (the chunk at position `i` has size `min k (N - k*i)`,
so every chunk but possibly the last has size `k`, and the sizes sum to
`N`), and the returned loss history is the concatenation of the per-chunk
losses, one entry per step, in global step order — it equals the naive
engine's step-ordered loss trace. -/
theorem ckpt_chunk_partition (opt : Optimizer) (lossFn : Model → Int → Int)
    (model : Model) (inputs : List Int) (k : Nat) (os : Option (List Int))
    (hne : inputs ≠ []) (hk1 : 1 ≤ k)
    (hdet : ∀ s m loss p, opt.step s m loss p true = opt.step s m loss p false)
    (hP : ∀ s m loss d, ((opt.step s m loss m.trainable d).2).length = m.trainable.length) :
    ∃ rC,
      GradientCheckpointMAML.forward opt lossFn model k inputs os = some rC ∧
      rC.lossHistory =
        (naiveLoop opt lossFn (initState opt model os) model inputs).lossHistory ∧
      (chunkSizes k inputs.length).sum = inputs.length ∧
      (∀ i, i < (chunkSizes k inputs.length).length →
        (chunkSizes k inputs.length).getD i 0 = min k (inputs.length - k * i)) ∧
      (∀ i, i + 1 < (chunkSizes k inputs.length).length →
        (chunkSizes k inputs.length).getD i 0 = k) := by
  have hne' : inputs.isEmpty = false := by simpa using hne
  have hk0 : k ≠ 0 := by omega
  rw [GradientCheckpointMAML.forward]
  simp only [hne', hk0, Bool.false_eq_true, if_false]
  refine ⟨_, rfl, ?_, chunkSizes_sum k hk0 inputs.length,
    chunkSizes_getD k hk0 inputs.length, chunkSizes_getD_of_not_last k hk0 inputs.length⟩
  rw [checkpointLoop_eq_naiveLoop opt lossFn model.frozen inputs
    model.trainable.length k hdet hP hk0 inputs.length 0 model.trainable
    (initState opt model os) (by omega) (by omega) rfl]
  simp only [List.drop_zero]

theorem ckpt_chunk_partition_witness :
    ∃ rC,
      GradientCheckpointMAML.forward sgd demoLoss demoModel 2 [3, 4, 5] none = some rC ∧
      rC.lossHistory =
        (naiveLoop sgd demoLoss (initState sgd demoModel none) demoModel
          [3, 4, 5]).lossHistory ∧
      (chunkSizes 2 ([3, 4, 5] : List Int).length).sum = ([3, 4, 5] : List Int).length ∧
      (∀ i, i < (chunkSizes 2 ([3, 4, 5] : List Int).length).length →
        (chunkSizes 2 ([3, 4, 5] : List Int).length).getD i 0 =
          min 2 (([3, 4, 5] : List Int).length - 2 * i)) ∧
      (∀ i, i + 1 < (chunkSizes 2 ([3, 4, 5] : List Int).length).length →
        (chunkSizes 2 ([3, 4, 5] : List Int).length).getD i 0 = 2) :=
  ckpt_chunk_partition sgd demoLoss demoModel [3, 4, 5] 2 none
    (by decide) (by decide) (fun _ _ _ _ => rfl)
    (by intro s m loss d; simp [sgd])

/-- Claim C6: for both engines, the returned model's non-selected parameters
and buffers (the frozen tensors, `parameters_not_to_copy`) are the original
model's tensors themselves — the identity-tagged tensor list is shared
unchanged, not recomputed or duplicated — and the original model value is
untouched (every update builds a new model value; the embedding is
functional exactly because the code never mutates in place). -/
theorem forward_shares_frozen_tensors (opt : Optimizer)
    (lossFn : Model → Int → Int) (model : Model) (inputs : List Int)
    (k : Nat) (os : Option (List Int))
    (hne : inputs ≠ []) (hk1 : 1 ≤ k) :
    ∃ rN rC,
      NaiveMAML.forward opt lossFn model inputs os = some rN ∧
      GradientCheckpointMAML.forward opt lossFn model k inputs os = some rC ∧
      rN.model.frozen = model.frozen ∧
      rC.model.frozen = model.frozen := by
  have hne' : inputs.isEmpty = false := by simpa using hne
  have hk0 : k ≠ 0 := by omega
  rw [NaiveMAML.forward, GradientCheckpointMAML.forward]
  simp only [hne', hk0, Bool.false_eq_true, if_false]
  exact ⟨_, _, rfl, rfl, naiveLoop_frozen opt lossFn inputs _ model, rfl⟩

theorem forward_shares_frozen_tensors_witness :
    ∃ rN rC,
      NaiveMAML.forward sgd demoLoss demoModel [3, 4, 5] none = some rN ∧
      GradientCheckpointMAML.forward sgd demoLoss demoModel 2 [3, 4, 5] none = some rC ∧
      rN.model.frozen = demoModel.frozen ∧
      rC.model.frozen = demoModel.frozen :=
  forward_shares_frozen_tensors sgd demoLoss demoModel [3, 4, 5] 2 none
    (by decide) (by decide)

/-- Claim C7: the checkpointed chunk body runs once per pass; in the
recording pass (gradients disabled, `gradEnabled = false`) every call it
makes to `optimizer.step` passes `detach = true`, and in the recompute pass
(gradients enabled) every call passes `detach = false`; apart from the
detach flag both passes execute the identical body on the same inputs, so
(under the optimizer's detach contract) the step index, per-step losses and
boundary tensors they produce are equal. -/
theorem chunk_two_pass_detach_flags (opt : Optimizer)
    (lossFn : Model → Int → Int) (frozen0 : List Tensor) (inputs : List Int)
    (P i steps : Nat) (flat : List Int)
    (hdet : ∀ s m loss p, opt.step s m loss p true = opt.step s m loss p false) :
    (mamlInternal opt lossFn frozen0 inputs P false i steps flat).detachTrace =
      List.replicate steps true ∧
    (mamlInternal opt lossFn frozen0 inputs P true i steps flat).detachTrace =
      List.replicate steps false ∧
    (mamlInternal opt lossFn frozen0 inputs P true i steps flat).stepIndex =
      (mamlInternal opt lossFn frozen0 inputs P false i steps flat).stepIndex ∧
    (mamlInternal opt lossFn frozen0 inputs P true i steps flat).innerLosses =
      (mamlInternal opt lossFn frozen0 inputs P false i steps flat).innerLosses ∧
    (mamlInternal opt lossFn frozen0 inputs P true i steps flat).flat =
      (mamlInternal opt lossFn frozen0 inputs P false i steps flat).flat := by
  refine ⟨?_, ?_, ?_, ?_, ?_⟩ <;>
    simp [mamlInternal, chunkLoop_detachTrace,
      chunkLoop_detach_invariant opt lossFn inputs hdet true]

theorem chunk_two_pass_detach_flags_witness :
    (mamlInternal sgd demoLoss demoModel.frozen [3, 4, 5] 2 false 0 2
        [1, 2, 0, 0]).detachTrace = List.replicate 2 true ∧
    (mamlInternal sgd demoLoss demoModel.frozen [3, 4, 5] 2 true 0 2
        [1, 2, 0, 0]).detachTrace = List.replicate 2 false ∧
    (mamlInternal sgd demoLoss demoModel.frozen [3, 4, 5] 2 true 0 2
        [1, 2, 0, 0]).stepIndex =
      (mamlInternal sgd demoLoss demoModel.frozen [3, 4, 5] 2 false 0 2
        [1, 2, 0, 0]).stepIndex ∧
    (mamlInternal sgd demoLoss demoModel.frozen [3, 4, 5] 2 true 0 2
        [1, 2, 0, 0]).innerLosses =
      (mamlInternal sgd demoLoss demoModel.frozen [3, 4, 5] 2 false 0 2
        [1, 2, 0, 0]).innerLosses ∧
    (mamlInternal sgd demoLoss demoModel.frozen [3, 4, 5] 2 true 0 2
        [1, 2, 0, 0]).flat =
      (mamlInternal sgd demoLoss demoModel.frozen [3, 4, 5] 2 false 0 2
        [1, 2, 0, 0]).flat :=
  chunk_two_pass_detach_flags sgd demoLoss demoModel.frozen [3, 4, 5] 2 0 2
    [1, 2, 0, 0] (fun _ _ _ _ => rfl)

/-- Claim C8: for both engines, forward on the concatenation `A ++ B`
produces the same final model, concatenated loss history and final
optimizer state as forward on `A` followed by forward on `B` with the first
call's returned optimizer state supplied and the engine's model replaced by
the first call's returned model (the checkpointed engine under the
optimizer's value-level contract). -/
theorem forward_resume_composes (opt : Optimizer)
    (lossFn : Model → Int → Int) (model : Model) (A B : List Int)
    (k : Nat) (os : Option (List Int))
    (hA : A ≠ []) (hB : B ≠ []) (hk1 : 1 ≤ k)
    (hdet : ∀ s m loss p, opt.step s m loss p true = opt.step s m loss p false)
    (hP : ∀ s m loss d, ((opt.step s m loss m.trainable d).2).length = m.trainable.length) :
    (∃ r1 r2 r,
      NaiveMAML.forward opt lossFn model A os = some r1 ∧
      NaiveMAML.forward opt lossFn r1.model B (some r1.optimizerState) = some r2 ∧
      NaiveMAML.forward opt lossFn model (A ++ B) os = some r ∧
      r.model = r2.model ∧
      r.lossHistory = r1.lossHistory ++ r2.lossHistory ∧
      r.optimizerState = r2.optimizerState) ∧
    (∃ c1 c2 c,
      GradientCheckpointMAML.forward opt lossFn model k A os = some c1 ∧
      GradientCheckpointMAML.forward opt lossFn c1.model k B
        (some c1.optimizerState) = some c2 ∧
      GradientCheckpointMAML.forward opt lossFn model k (A ++ B) os = some c ∧
      c.model = c2.model ∧
      c.lossHistory = c1.lossHistory ++ c2.lossHistory ∧
      c.optimizerState = c2.optimizerState) := by
  have hA' : A.isEmpty = false := by simpa using hA
  have hB' : B.isEmpty = false := by simpa using hB
  have hABne : A ++ B ≠ [] := fun h => hA (List.append_eq_nil.mp h).1
  have hAB' : (A ++ B).isEmpty = false := by simpa using hABne
  have hmain : ∃ r1 r2 r,
      NaiveMAML.forward opt lossFn model A os = some r1 ∧
      NaiveMAML.forward opt lossFn r1.model B (some r1.optimizerState) = some r2 ∧
      NaiveMAML.forward opt lossFn model (A ++ B) os = some r ∧
      r.model = r2.model ∧
      r.lossHistory = r1.lossHistory ++ r2.lossHistory ∧
      r.optimizerState = r2.optimizerState := by
    refine ⟨naiveLoop opt lossFn (initState opt model os) model A,
      naiveLoop opt lossFn
        (naiveLoop opt lossFn (initState opt model os) model A).optimizerState
        (naiveLoop opt lossFn (initState opt model os) model A).model B,
      naiveLoop opt lossFn (initState opt model os) model (A ++ B),
      ?_, ?_, ?_, ?_, ?_, ?_⟩
    · simp [NaiveMAML.forward, hA']
    · simp [NaiveMAML.forward, hB', initState]
    · simp [NaiveMAML.forward, hAB']
    · rw [naiveLoop_append]
    · rw [naiveLoop_append]
    · rw [naiveLoop_append]
  refine ⟨hmain, ?_⟩
  obtain ⟨r1, r2, r, h1, h2, h3, hm, hh, hs⟩ := hmain
  exact ⟨r1, r2, r,
    by rw [ckpt_forward_eq_naive_aux opt lossFn model A k os hA hk1 hdet hP]; exact h1,
    by rw [ckpt_forward_eq_naive_aux opt lossFn r1.model B k
      (some r1.optimizerState) hB hk1 hdet hP]; exact h2,
    by rw [ckpt_forward_eq_naive_aux opt lossFn model (A ++ B) k os hABne hk1
      hdet hP]; exact h3,
    hm, hh, hs⟩

theorem forward_resume_composes_witness :
    (∃ r1 r2 r,
      NaiveMAML.forward sgd demoLoss demoModel [3, 4] none = some r1 ∧
      NaiveMAML.forward sgd demoLoss r1.model [5] (some r1.optimizerState) = some r2 ∧
      NaiveMAML.forward sgd demoLoss demoModel ([3, 4] ++ [5]) none = some r ∧
      r.model = r2.model ∧
      r.lossHistory = r1.lossHistory ++ r2.lossHistory ∧
      r.optimizerState = r2.optimizerState) ∧
    (∃ c1 c2 c,
      GradientCheckpointMAML.forward sgd demoLoss demoModel 2 [3, 4] none = some c1 ∧
      GradientCheckpointMAML.forward sgd demoLoss c1.model 2 [5]
        (some c1.optimizerState) = some c2 ∧
      GradientCheckpointMAML.forward sgd demoLoss demoModel 2 ([3, 4] ++ [5]) none = some c ∧
      c.model = c2.model ∧
      c.lossHistory = c1.lossHistory ++ c2.lossHistory ∧
      c.optimizerState = c2.optimizerState) :=
  forward_resume_composes sgd demoLoss demoModel [3, 4] [5] 2 none
    (by decide) (by decide) (by decide) (fun _ _ _ _ => rfl)
    (by intro s m loss d; simp [sgd])

/-- Claim C9: with fixed per-step tensor counts (`P` selected parameters and
`S` optimizer-state tensors), the checkpointed engine's retained
intermediate-tensor count is a constant times `ceil(N / checkpoint_steps)` —
the checkpoint loop performs exactly `(N + k - 1) / k` checkpoint
invocations, each retaining only its boundary tensors — whereas the naive
engine's retained computation graph is a constant times `N`, linear in the
step count. -/
theorem memory_grows_with_chunk_count (P S n k : Nat) (hk1 : 1 ≤ k) :
    checkpointRetainedTensors P S k n = (2 + P + S) * ((n + k - 1) / k) ∧
    naiveRetainedTensors P S n = (1 + P + S) * n ∧
    ∀ (opt : Optimizer) (lossFn : Model → Int → Int) (frozen0 : List Tensor)
      (inputs : List Int) (i : Nat) (flat : List Int),
      (checkpointLoop opt lossFn frozen0 inputs P (chunkSizes k n) i flat).2.2.2 =
        (n + k - 1) / k := by
  have hk0 : k ≠ 0 := by omega
  refine ⟨?_, rfl, ?_⟩
  · unfold checkpointRetainedTensors
    rw [chunkSizes_length k hk0 n]
  · intro opt lossFn frozen0 inputs i flat
    rw [checkpointLoop_calls, chunkSizes_length k hk0 n]

theorem memory_grows_with_chunk_count_witness :
    checkpointRetainedTensors 2 2 2 5 = (2 + 2 + 2) * ((5 + 2 - 1) / 2) ∧
    naiveRetainedTensors 2 2 5 = (1 + 2 + 2) * 5 ∧
    ∀ (opt : Optimizer) (lossFn : Model → Int → Int) (frozen0 : List Tensor)
      (inputs : List Int) (i : Nat) (flat : List Int),
      (checkpointLoop opt lossFn frozen0 inputs 2 (chunkSizes 2 5) i flat).2.2.2 =
        (5 + 2 - 1) / 2 :=
  memory_grows_with_chunk_count 2 2 5 2 (by decide)

/-- Claim C10: if `checkpoint_steps` exceeds the length `N` of a non-empty
input sequence, the checkpointed forward still succeeds, executing exactly
one chunk of size `N` (the chunk-size sequence is `[N]`) and returning `N`
losses; and in general the chunk loop performs exactly
`ceil(N / checkpoint_steps)` checkpoint invocations. -/
theorem ckpt_oversized_steps_single_chunk (opt : Optimizer)
    (lossFn : Model → Int → Int) (model : Model) (inputs : List Int)
    (k : Nat) (os : Option (List Int))
    (hne : inputs ≠ []) (hkN : inputs.length < k) :
    chunkSizes k inputs.length = [inputs.length] ∧
    (∃ r, GradientCheckpointMAML.forward opt lossFn model k inputs os = some r ∧
      r.lossHistory.length = inputs.length) ∧
    ∀ k', 1 ≤ k' →
      ∀ (frozen0 : List Tensor) (P i : Nat) (flat : List Int),
        (checkpointLoop opt lossFn frozen0 inputs P (chunkSizes k' inputs.length) i
          flat).2.2.2 = (inputs.length + k' - 1) / k' := by
  have hlen : 0 < inputs.length := List.length_pos.mpr hne
  have hk0 : k ≠ 0 := by omega
  have hne' : inputs.isEmpty = false := by simpa using hne
  have hchunk : chunkSizes k inputs.length = [inputs.length] := by
    obtain ⟨m, hm⟩ : ∃ m, inputs.length = m + 1 := ⟨inputs.length - 1, by omega⟩
    rw [hm, chunkSizes_succ k m hk0]
    have h1 : min k (m + 1) = m + 1 := by omega
    have h2 : m + 1 - k = 0 := by omega
    rw [h1, h2, chunkSizes_zero]
  refine ⟨hchunk, ?_, ?_⟩
  · rw [GradientCheckpointMAML.forward]
    simp only [hne', hk0, Bool.false_eq_true, if_false]
    refine ⟨_, rfl, ?_⟩
    simp only [checkpointLoop_hist_length]
    exact chunkSizes_sum k hk0 inputs.length
  · intro k' hk' frozen0 P i flat
    rw [checkpointLoop_calls, chunkSizes_length k' (by omega) inputs.length]

theorem ckpt_oversized_steps_single_chunk_witness :
    chunkSizes 5 ([3, 4, 5] : List Int).length = [([3, 4, 5] : List Int).length] ∧
    (∃ r, GradientCheckpointMAML.forward sgd demoLoss demoModel 5 [3, 4, 5] none =
        some r ∧
      r.lossHistory.length = ([3, 4, 5] : List Int).length) ∧
    ∀ k', 1 ≤ k' →
      ∀ (frozen0 : List Tensor) (P i : Nat) (flat : List Int),
        (checkpointLoop sgd demoLoss frozen0 [3, 4, 5] P
          (chunkSizes k' ([3, 4, 5] : List Int).length) i flat).2.2.2 =
          (([3, 4, 5] : List Int).length + k' - 1) / k' :=
  ckpt_oversized_steps_single_chunk sgd demoLoss demoModel [3, 4, 5] 5 none
    (by decide) (by decide)

end TorchMaml
